import Mathlib

/-!
Verification of the X11 game manager (`runekit/game/x11/manager.py`):
the shared-memory pool (`get_shm` / `free_shm` / `gc_shm`), the atom
cache (`get_atom`), the property decoder (`get_property`), the event
worker's dispatch loop (`X11EventWorker.run`), the focus handler
(`on_property_change`) and window discovery (`get_instances`).
Each Python function is shallowly embedded as an executable Lean
definition; stateful code is modelled by explicit state passing.
-/

/-! ## Shared-memory pool -/

/-- A pooled shared-memory segment: the X server attachment id paired with
the byte size of the underlying SysV segment.  In the source a pool entry
is the tuple `(xid, shm)` with `shm.size` its byte size. -/
structure Segment where
  xid : Nat
  size : Nat
deriving DecidableEq

/-- `MAX_SHM = 10` (module constant). -/
def MAX_SHM : Nat := 10

/-- Result of `get_shm`: the returned segment, the idle list (`_shm`)
left behind, and whether a fresh segment was allocated (the
`sysv_ipc.SharedMemory(...)` / `Attach` branch). -/
structure GetShmResult where
  seg : Segment
  pool : List Segment
  allocated : Bool
deriving DecidableEq

/-- `get_shm(size)`: linear first-fit scan of `_shm`; on a hit the entry is
removed (`self._shm.remove(item)` removes the first equal entry, which is
the found one) and returned; otherwise a fresh segment of exactly `size`
bytes is created and attached under a freshly generated id. -/
def get_shm (shm : List Segment) (size : Nat) (freshXid : Nat) : GetShmResult :=
  match shm.find? (fun item => decide (size ≤ item.size)) with
  | some item => ⟨item, shm.erase item, false⟩
  | none => ⟨⟨freshXid, size⟩, shm, true⟩

/-- `gc_shm`: `while len(self._shm) > MAX_SHM: self._shm.pop(0)`, detaching
and destroying each popped segment.  Returns the surviving idle list and
the destroyed segments in pop order. -/
def gc_shm : List Segment → List Segment × List Segment
  | [] => ([], [])
  | x :: rest =>
    if MAX_SHM < rest.length + 1 then
      let r := gc_shm rest
      (r.1, x :: r.2)
    else (x :: rest, [])

/-- `free_shm(shm)`: append the segment to the idle list, then `gc_shm`.
Returns the new idle list and the destroyed segments. -/
def free_shm (shm : List Segment) (seg : Segment) : List Segment × List Segment :=
  gc_shm (shm ++ [seg])

/-- One pool call, as issued by callers of the manager. -/
inductive PoolOp where
  | get (size freshXid : Nat)
  | free (seg : Segment)

/-- Effect of one pool call on the idle list `_shm`. -/
def runOp (shm : List Segment) : PoolOp → List Segment
  | .get size freshXid => (get_shm shm size freshXid).pool
  | .free seg => (free_shm shm seg).1

/-- The idle list after a sequence of pool calls, starting from the empty
list set up in `__init__`. -/
def runOps (ops : List PoolOp) : List Segment :=
  ops.foldl runOp []

/-- `gc_shm` keeps the last `MAX_SHM` entries and destroys the front
overflow, in order. -/
theorem gc_shm_eq (l : List Segment) :
    gc_shm l = (l.drop (l.length - MAX_SHM), l.take (l.length - MAX_SHM)) := by
  induction l with
  | nil => rfl
  | cons x rest ih =>
    by_cases h : MAX_SHM < rest.length + 1
    · have hk : (x :: rest).length - MAX_SHM = (rest.length - MAX_SHM) + 1 := by
        simp only [List.length_cons]; omega
      simp only [gc_shm, if_pos h, ih, hk, List.drop_succ_cons, List.take_succ_cons]
    · have hk : (x :: rest).length - MAX_SHM = 0 := by
        simp only [List.length_cons]; omega
      simp only [gc_shm, if_neg h, hk, List.drop_zero, List.take_zero]

/-- C1: after any sequence of `get_shm`/`free_shm` calls, immediately after
a `free_shm` call returns, the idle list `_shm` holds at most `MAX_SHM`
(10) segments. -/
theorem free_shm_bounds_pool (ops : List PoolOp) (seg : Segment) :
    ((free_shm (runOps ops) seg).1).length ≤ MAX_SHM := by
  rw [free_shm, gc_shm_eq]
  simp only [List.length_drop]
  omega

/-- C2: whenever the eviction step runs with the idle list over capacity,
the destroyed segments are exactly the front entries in insertion order
(oldest first), the survivors are the remaining back entries, and the list
is cut back to exactly `MAX_SHM` — independent of any segment's size. -/
theorem gc_shm_evicts_front (l : List Segment) (h : MAX_SHM < l.length) :
    (gc_shm l).2 = l.take (l.length - MAX_SHM) ∧
    (gc_shm l).1 = l.drop (l.length - MAX_SHM) ∧
    (gc_shm l).1.length = MAX_SHM := by
  rw [gc_shm_eq]
  refine ⟨rfl, rfl, ?_⟩
  simp only [List.length_drop]
  omega

/-- Concrete pool of 11 distinct segments used to exercise the eviction
theorem. -/
def shmPool11 : List Segment :=
  (List.range 11).map (fun i => ⟨i, 64 + i⟩)

theorem gc_shm_evicts_front_witness :
    (gc_shm shmPool11).2 = shmPool11.take (shmPool11.length - MAX_SHM) ∧
    (gc_shm shmPool11).1 = shmPool11.drop (shmPool11.length - MAX_SHM) ∧
    (gc_shm shmPool11).1.length = MAX_SHM :=
  gc_shm_evicts_front shmPool11 (by decide)

/-- C5 counterexample: with idle list `[⟨0,5⟩, ⟨1,5⟩]` (not over capacity)
and request size 3, `get_shm` returns `⟨0,5⟩`; releasing it and repeating
`get_shm 3` returns `⟨1,5⟩`, a different segment, because the released
segment re-enters at the back while another fitting segment sits ahead. -/
theorem get_free_get_counterexample :
    ([⟨0, 5⟩, ⟨1, 5⟩] : List Segment).length ≤ MAX_SHM ∧
    (get_shm ((free_shm (get_shm [⟨0, 5⟩, ⟨1, 5⟩] 3 100).pool
        (get_shm [⟨0, 5⟩, ⟨1, 5⟩] 3 100).seg).1) 3 101).seg ≠
      (get_shm [⟨0, 5⟩, ⟨1, 5⟩] 3 100).seg := by
  decide

/-- `find?` returns `a` when `a` is the only element satisfying `p`. -/
theorem find?_eq_some_of_unique {α : Type} {p : α → Bool} {l : List α} {a : α}
    (ha : a ∈ l) (hpa : p a = true) (huniq : ∀ s ∈ l, p s = true → s = a) :
    l.find? p = some a := by
  induction l with
  | nil => cases ha
  | cons x rest ih =>
    by_cases hx : p x = true
    · have hxa : x = a := huniq x (List.mem_cons_self x rest) hx
      subst hxa
      simp [List.find?_cons, hx]
    · have hxa : x ≠ a := fun h => hx (h ▸ hpa)
      have ha' : a ∈ rest := by
        rcases List.mem_cons.mp ha with h | h
        · exact absurd h.symm hxa
        · exact h
      have hrest : rest.find? p = some a :=
        ih ha' (fun s hs hp => huniq s (List.mem_cons_of_mem x hs) hp)
      simp [List.find?_cons, hx, hrest]

/-- C5 (amended): `get_shm n`, `free_shm` of the returned segment, then
`get_shm n` again returns the same segment with no new allocation,
provided the pool was not over capacity and no idle segment other than
the returned one has capacity ≥ n. -/
theorem get_free_get_same (st : List Segment) (n f1 f2 : Nat)
    (hcap : st.length ≤ MAX_SHM)
    (honly : ∀ s ∈ st, n ≤ s.size → s = (get_shm st n f1).seg) :
    (get_shm ((free_shm (get_shm st n f1).pool (get_shm st n f1).seg).1) n f2).seg
      = (get_shm st n f1).seg ∧
    (get_shm ((free_shm (get_shm st n f1).pool (get_shm st n f1).seg).1) n f2).allocated
      = false := by
  rcases hfind : st.find? (fun item => decide (n ≤ item.size)) with _ | item
  · -- no fit: a fresh segment ⟨f1, n⟩ is allocated; the pool is unchanged
    have hg1 : get_shm st n f1 = ⟨Segment.mk f1 n, st, true⟩ := by
      simp [get_shm, hfind]
    have hnone : ∀ s ∈ st, ¬ (n ≤ s.size) := by
      intro s hs hle
      have h2 := List.find?_eq_none.mp hfind s hs
      simp only [decide_eq_true_eq] at h2
      exact h2 hle
    have hstep : (free_shm st (Segment.mk f1 n)).1
        = st.drop ((st ++ [Segment.mk f1 n]).length - MAX_SHM) ++ [Segment.mk f1 n] := by
      rw [free_shm, gc_shm_eq]
      simp only
      rw [List.drop_append_eq_append_drop]
      have h0 : (st ++ [Segment.mk f1 n]).length - MAX_SHM - st.length = 0 := by
        simp only [List.length_append, List.length_cons, List.length_nil, MAX_SHM]
        omega
      rw [h0, List.drop_zero]
    have hfind2 : ((free_shm st (Segment.mk f1 n)).1).find?
        (fun item => decide (n ≤ item.size)) = some (Segment.mk f1 n) := by
      rw [hstep]
      apply find?_eq_some_of_unique (List.mem_append_right _ (List.mem_singleton.mpr rfl))
      · simp
      · intro s hs hp
        rcases List.mem_append.mp hs with h | h
        · exact absurd (of_decide_eq_true hp) (hnone s (List.mem_of_mem_drop h))
        · exact List.mem_singleton.mp h
    rw [hg1]
    simp [get_shm, hfind2]
  · -- fit: `item` is removed and returned; it is the unique fitting segment
    have hg1 : get_shm st n f1 = ⟨item, st.erase item, false⟩ := by
      simp [get_shm, hfind]
    have hmem : item ∈ st := List.mem_of_find?_eq_some hfind
    have hfit : n ≤ item.size := by
      have h2 := List.find?_some hfind
      simp only [decide_eq_true_eq] at h2
      exact h2
    rw [hg1] at honly ⊢
    simp only [hg1] at honly
    have hpos : 1 ≤ st.length := List.length_pos.mpr (List.ne_nil_of_mem hmem)
    have hlen : (st.erase item ++ [item]).length = st.length := by
      have h3 := List.length_erase_add_one hmem
      simp only [List.length_append, List.length_cons, List.length_nil]
      omega
    have hstep : (free_shm (st.erase item) item).1 = st.erase item ++ [item] := by
      rw [free_shm, gc_shm_eq]
      simp only
      rw [hlen]
      have h0 : st.length - MAX_SHM = 0 := by omega
      rw [h0, List.drop_zero]
    have hfind2 : ((free_shm (st.erase item) item).1).find?
        (fun item2 => decide (n ≤ item2.size)) = some item := by
      rw [hstep]
      apply find?_eq_some_of_unique (List.mem_append_right _ (List.mem_singleton.mpr rfl))
      · simp [hfit]
      · intro s hs hp
        rcases List.mem_append.mp hs with h | h
        · exact honly s (List.mem_of_mem_erase h) (of_decide_eq_true hp)
        · exact List.mem_singleton.mp h
    simp [get_shm, hfind2]

theorem get_free_get_same_witness :
    (get_shm ((free_shm (get_shm [⟨0, 2⟩] 3 7).pool (get_shm [⟨0, 2⟩] 3 7).seg).1) 3 8).seg
      = (get_shm [⟨0, 2⟩] 3 7).seg ∧
    (get_shm ((free_shm (get_shm [⟨0, 2⟩] 3 7).pool (get_shm [⟨0, 2⟩] 3 7).seg).1) 3 8).allocated
      = false :=
  get_free_get_same [⟨0, 2⟩] 3 7 8 (by decide) (by decide)

/-! ## Atom cache (`get_atom`) -/

/-- The statically defined protocol atoms of `xcffib.xproto.Atom`
(`hasattr`/`getattr` on that class): name to constant. -/
def xprotoAtoms : List (String × Nat) :=
  [("_None", 0), ("PRIMARY", 1), ("SECONDARY", 2), ("ARC", 3), ("ATOM", 4),
   ("BITMAP", 5), ("CARDINAL", 6), ("COLORMAP", 7), ("CURSOR", 8),
   ("CUT_BUFFER0", 9), ("CUT_BUFFER1", 10), ("CUT_BUFFER2", 11),
   ("CUT_BUFFER3", 12), ("CUT_BUFFER4", 13), ("CUT_BUFFER5", 14),
   ("CUT_BUFFER6", 15), ("CUT_BUFFER7", 16), ("DRAWABLE", 17), ("FONT", 18),
   ("INTEGER", 19), ("PIXMAP", 20), ("POINT", 21), ("RECTANGLE", 22),
   ("RESOURCE_MANAGER", 23), ("RGB_COLOR_MAP", 24), ("RGB_BEST_MAP", 25),
   ("RGB_BLUE_MAP", 26), ("RGB_DEFAULT_MAP", 27), ("RGB_GRAY_MAP", 28),
   ("RGB_GREEN_MAP", 29), ("RGB_RED_MAP", 30), ("STRING", 31),
   ("VISUALID", 32), ("WINDOW", 33), ("WM_COMMAND", 34), ("WM_HINTS", 35),
   ("WM_CLIENT_MACHINE", 36), ("WM_ICON_NAME", 37), ("WM_ICON_SIZE", 38),
   ("WM_NAME", 39), ("WM_NORMAL_HINTS", 40), ("WM_SIZE_HINTS", 41),
   ("WM_ZOOM_HINTS", 42), ("MIN_SPACE", 43), ("NORM_SPACE", 44),
   ("MAX_SPACE", 45), ("END_SPACE", 46), ("SUPERSCRIPT_X", 47),
   ("SUPERSCRIPT_Y", 48), ("SUBSCRIPT_X", 49), ("SUBSCRIPT_Y", 50),
   ("UNDERLINE_POSITION", 51), ("UNDERLINE_THICKNESS", 52),
   ("STRIKEOUT_ASCENT", 53), ("STRIKEOUT_DESCENT", 54), ("ITALIC_ANGLE", 55),
   ("X_HEIGHT", 56), ("QUAD_WIDTH", 57), ("WEIGHT", 58), ("POINT_SIZE", 59),
   ("RESOLUTION", 60), ("COPYRIGHT", 61), ("NOTICE", 62), ("FONT_NAME", 63),
   ("FAMILY_NAME", 64), ("FULL_NAME", 65), ("CAP_HEIGHT", 66),
   ("WM_CLASS", 67), ("WM_TRANSIENT_FOR", 68)]

/-- `hasattr(xcffib.xproto.Atom, atom)` / `getattr(...)`. -/
def staticAtom (s : String) : Option Nat :=
  xprotoAtoms.lookup s

/-- The argument of `get_atom`: already-resolved integer, or a name. -/
inductive AtomArg where
  | int (n : Nat)
  | str (s : String)

/-- Result of one `get_atom` call: the returned id, the cache `_atom`
afterwards, and how many `InternAtom` round trips the call issued. -/
structure GetAtomResult where
  atom : Nat
  cache : List (String × Nat)
  internCalls : Nat

/-- `get_atom`: integer pass-through, then the static `Atom` constants,
then the `_atom` cache, then an `InternAtom` round trip whose result is
stored in the cache.  The connection's intern reply is the oracle
`intern`. -/
def get_atom (intern : String → Nat) (cache : List (String × Nat)) :
    AtomArg → GetAtomResult
  | .int n => ⟨n, cache, 0⟩
  | .str s =>
    match staticAtom s with
    | some v => ⟨v, cache, 0⟩
    | none =>
      match cache.lookup s with
      | some v => ⟨v, cache, 0⟩
      | none => ⟨intern s, cache ++ [(s, intern s)], 1⟩

/-- Appending a fresh key to an association list makes `lookup` find it. -/
theorem lookup_append_single {cache : List (String × Nat)} {s : String} {v : Nat}
    (h : cache.lookup s = none) : (cache ++ [(s, v)]).lookup s = some v := by
  induction cache with
  | nil => simp [List.lookup]
  | cons x rest ih =>
    rw [List.lookup] at h
    rcases hx : (s == x.1) with _ | _
    · rw [hx] at h
      simp only [List.cons_append, List.lookup, hx]
      exact ih h
    · rw [hx] at h
      cases h

/-- C4: `get_atom` is idempotent: a second call with the same argument
returns the same identifier and issues no `InternAtom` round trip, and an
integer argument is returned unchanged, with no round trip and no cache
change already on the first call. -/
theorem get_atom_idempotent (intern : String → Nat) (cache : List (String × Nat))
    (a : AtomArg) :
    (get_atom intern (get_atom intern cache a).cache a).atom
      = (get_atom intern cache a).atom ∧
    (get_atom intern (get_atom intern cache a).cache a).internCalls = 0 ∧
    (∀ n, a = .int n →
      (get_atom intern cache a).atom = n ∧
      (get_atom intern cache a).internCalls = 0 ∧
      (get_atom intern cache a).cache = cache) := by
  cases a with
  | int n => exact ⟨rfl, rfl, fun m h => ⟨by cases h; rfl, rfl, rfl⟩⟩
  | str s =>
    refine ⟨?_, ?_, fun m h => by cases h⟩ <;>
    · rcases hstatic : staticAtom s with _ | v
      · rcases hcache : cache.lookup s with _ | v
        · have h2 : ((cache ++ [(s, intern s)]).lookup s) = some (intern s) :=
            lookup_append_single hcache
          simp [get_atom, hstatic, hcache, h2]
        · simp [get_atom, hstatic, hcache]
      · simp [get_atom, hstatic]

theorem get_atom_idempotent_witness :
    (get_atom (fun _ => 77) (get_atom (fun _ => 77) [] (AtomArg.int 5)).cache
        (AtomArg.int 5)).atom
      = (get_atom (fun _ => 77) [] (AtomArg.int 5)).atom ∧
    (get_atom (fun _ => 77) (get_atom (fun _ => 77) [] (AtomArg.int 5)).cache
        (AtomArg.int 5)).internCalls = 0 ∧
    ((get_atom (fun _ => 77) [] (AtomArg.int 5)).atom = 5 ∧
      (get_atom (fun _ => 77) [] (AtomArg.int 5)).internCalls = 0 ∧
      (get_atom (fun _ => 77) [] (AtomArg.int 5)).cache = []) := by
  have h := get_atom_idempotent (fun _ => 77) [] (AtomArg.int 5)
  exact ⟨h.1, h.2.1, h.2.2 5 rfl⟩

/-! ## Property decoding (`get_property`) -/

/-- `xcffib.xproto.Atom.STRING`. -/
def Atom_STRING : Nat := 31

/-- `xcffib.xproto.Atom.WINDOW`. -/
def Atom_WINDOW : Nat := 33

/-- `xcffib.xproto.Atom.CARDINAL`. -/
def Atom_CARDINAL : Nat := 6

/-- `reply.value.to_string()`: each byte becomes one character. -/
def bytesToString (bs : List (Fin 256)) : String :=
  String.mk (bs.map (fun b => Char.ofNat b.val))

/-- Python `s[:-1]`: drop the final character (empty stays empty). -/
def pyDropLast (s : String) : String :=
  String.mk s.data.dropLast

/-- `struct.unpack("=I", buf)[0]`: a single native-order (little-endian)
unsigned 32-bit word; `struct.error` unless the buffer is exactly 4
bytes. -/
def unpack_u32 (bs : List (Fin 256)) : Option Nat :=
  match bs with
  | [b0, b1, b2, b3] => some (b0.val + 256 * b1.val + 65536 * b2.val + 16777216 * b3.val)
  | _ => none

/-- Outcome of `get_property`'s decoding of a `GetProperty` reply. -/
inductive DecodedProp where
  | str (s : String)
  | int (n : Nat)
  | raw (bs : List (Fin 256))
deriving DecidableEq

/-- The decoding step of `get_property`: a `STRING`-typed reply becomes
text with the final character stripped; a `WINDOW`- or `CARDINAL`-typed
reply is unpacked as one unsigned 32-bit word (a `struct.error`, modelled
as `.error`, if the buffer is not 4 bytes); any other type is returned as
the raw byte buffer. -/
def decode_property (ty : Nat) (value : List (Fin 256)) : Except Unit DecodedProp :=
  if ty = Atom_STRING then
    .ok (.str (pyDropLast (bytesToString value)))
  else if ty = Atom_WINDOW ∨ ty = Atom_CARDINAL then
    match unpack_u32 value with
    | some n => .ok (.int n)
    | none => .error ()
  else
    .ok (.raw value)

/-- C8: a reply of string type is returned as text with its trailing
terminator stripped; a reply of window or cardinal type whose value is one
machine word (4 bytes) is returned as an unsigned 32-bit integer (the
little-endian word value, below `2^32`); a reply of any other type is
returned as the raw byte buffer. -/
theorem get_property_decode (ty : Nat) (value : List (Fin 256)) :
    (ty = Atom_STRING →
      decode_property ty value = .ok (.str (pyDropLast (bytesToString value)))) ∧
    ((ty = Atom_WINDOW ∨ ty = Atom_CARDINAL) → value.length = 4 →
      ∃ b0 b1 b2 b3 : Fin 256, value = [b0, b1, b2, b3] ∧
        decode_property ty value
          = .ok (.int (b0.val + 256 * b1.val + 65536 * b2.val + 16777216 * b3.val)) ∧
        b0.val + 256 * b1.val + 65536 * b2.val + 16777216 * b3.val < 2 ^ 32) ∧
    (ty ≠ Atom_STRING → ty ≠ Atom_WINDOW → ty ≠ Atom_CARDINAL →
      decode_property ty value = .ok (.raw value)) := by
  refine ⟨?_, ?_, ?_⟩
  · intro h
    simp [decode_property, h]
  · intro hty hlen
    have hs : ty ≠ Atom_STRING := by
      rcases hty with h | h <;> · rw [h]; decide
    match value, hlen with
    | [b0, b1, b2, b3], _ =>
      refine ⟨b0, b1, b2, b3, rfl, ?_, ?_⟩
      · simp [decode_property, hs, hty, unpack_u32]
      · have h0 := b0.isLt
        have h1 := b1.isLt
        have h2 := b2.isLt
        have h3 := b3.isLt
        omega
  · intro h1 h2 h3
    have : ¬ (ty = Atom_WINDOW ∨ ty = Atom_CARDINAL) := by
      rintro (h | h) <;> [exact h2 h; exact h3 h]
    simp [decode_property, h1, this]

/-- The bytes of `"foo\x00"`. -/
def fooBytes : List (Fin 256) := [⟨102, by decide⟩, ⟨111, by decide⟩, ⟨111, by decide⟩, ⟨0, by decide⟩]

theorem get_property_decode_witness :
    decode_property Atom_STRING fooBytes
      = .ok (.str (pyDropLast (bytesToString fooBytes))) ∧
    (∃ b0 b1 b2 b3 : Fin 256, fooBytes = [b0, b1, b2, b3] ∧
      decode_property Atom_CARDINAL fooBytes
        = .ok (.int (b0.val + 256 * b1.val + 65536 * b2.val + 16777216 * b3.val)) ∧
      b0.val + 256 * b1.val + 65536 * b2.val + 16777216 * b3.val < 2 ^ 32) ∧
    decode_property 4 fooBytes = .ok (.raw fooBytes) := by
  refine ⟨?_, ?_, ?_⟩
  · exact (get_property_decode Atom_STRING fooBytes).1 rfl
  · exact (get_property_decode Atom_CARDINAL fooBytes).2.1 (Or.inr rfl) (by decide)
  · exact (get_property_decode 4 fooBytes).2.2 (by decide) (by decide) (by decide)

/-! ## Event worker dispatch (`X11EventWorker.run`) -/

/-- Concrete protocol event classes a `poll_for_event` call can yield.
`keyRelease` / `buttonRelease` are Python subclasses of
`KeyPressEvent` / `ButtonPressEvent` (xcffib generates event copies by
inheritance); `other` stands for any class unrelated to the table. -/
inductive XEvent where
  | propertyNotify (window atom : Nat)
  | configureNotify (window : Nat)
  | keyPress (event : Nat)
  | keyRelease (event : Nat)
  | buttonPress (event : Nat)
  | buttonRelease (event : Nat)
  | other

/-- The four keys of `self.handlers`. -/
inductive HandlerKey where
  | propertyNotifyEvent
  | configureNotifyEvent
  | keyPressEvent
  | buttonPressEvent
deriving DecidableEq

/-- `isinstance(evt, wanted_type)`: type-compatibility, not exact match —
a release event is an instance of the corresponding press class. -/
def isinstanceOf : XEvent → HandlerKey → Bool
  | .propertyNotify _ _, .propertyNotifyEvent => true
  | .configureNotify _, .configureNotifyEvent => true
  | .keyPress _, .keyPressEvent => true
  | .keyRelease _, .keyPressEvent => true
  | .buttonPress _, .buttonPressEvent => true
  | .buttonRelease _, .buttonPressEvent => true
  | _, _ => false

/-- `self.handlers` in dict insertion order. -/
def handlersTable : List HandlerKey :=
  [.propertyNotifyEvent, .configureNotifyEvent, .keyPressEvent, .buttonPressEvent]

/-- The dispatch loop `for wanted_type, handler in self.handlers.items():
if isinstance(evt, wanted_type): ...` invokes the handler of every
matching table entry, in table order. -/
def invokedHandlers (evt : XEvent) : List HandlerKey :=
  handlersTable.filter (fun k => isinstanceOf evt k)

/-- C3: for every polled event, the entries whose handler the worker
invokes are exactly the first matching table entry (none if no entry
matches) — at most one handler runs per dispatched event. -/
theorem dispatch_first_match_only (evt : XEvent) :
    invokedHandlers evt = (handlersTable.find? (fun k => isinstanceOf evt k)).toList ∧
    (invokedHandlers evt).length ≤ 1 := by
  cases evt <;> refine ⟨rfl, ?_⟩ <;> simp [invokedHandlers, handlersTable, isinstanceOf]

/-- `repr(evt)` stand-in: the class name and the identifying field. -/
def reprEvent : XEvent → String
  | .propertyNotify w a => "<PropertyNotifyEvent " ++ toString w ++ " " ++ toString a ++ ">"
  | .configureNotify w => "<ConfigureNotifyEvent " ++ toString w ++ ">"
  | .keyPress e => "<KeyPressEvent " ++ toString e ++ ">"
  | .keyRelease e => "<KeyReleaseEvent " ++ toString e ++ ">"
  | .buttonPress e => "<ButtonPressEvent " ++ toString e ++ ">"
  | .buttonRelease e => "<ButtonReleaseEvent " ++ toString e ++ ">"
  | .other => "<Event>"

/-- One dispatch pass over the table: each matching handler runs inside
`try`/bare `except`, and a failure produces the
`logger.error("Error handling event %s", repr(evt), exc_info=True)` entry
(message paired with the exception) instead of propagating.  The result
type being a plain log list — not an `Except` — is the catch: no handler
outcome can escape the dispatch boundary. -/
def dispatchStep (run : HandlerKey → XEvent → Except String Unit) (evt : XEvent) :
    List (String × String) :=
  handlersTable.filterMap (fun k =>
    if isinstanceOf evt k then
      match run k evt with
      | .ok _ => none
      | .error e => some ("Error handling event " ++ reprEvent evt, e)
    else none)

/-- What the worker loop does at the top of one iteration. -/
inductive LoopAction where
  | stop
  | sleepContinue
  | dispatched (logs : List (String × String))

/-- One iteration of `X11EventWorker.run`: return on interruption, sleep
when `poll_for_event` yields nothing, otherwise dispatch the event. -/
def workerStep (interrupted : Bool) (evt : Option XEvent)
    (run : HandlerKey → XEvent → Except String Unit) : LoopAction :=
  if interrupted then .stop
  else
    match evt with
    | none => .sleepContinue
    | some e => .dispatched (dispatchStep run e)

/-- C9: whatever any handler does with a polled event, the iteration ends
in `dispatched` (the loop proceeds to poll again — handler failures never
propagate), every failing matching handler leaves a log entry carrying the
event's representation, and every log entry of the pass carries it. -/
theorem dispatch_catches_errors (run : HandlerKey → XEvent → Except String Unit)
    (evt : XEvent) :
    workerStep false (some evt) run = .dispatched (dispatchStep run evt) ∧
    (∀ k e, isinstanceOf evt k = true → run k evt = .error e →
      ("Error handling event " ++ reprEvent evt, e) ∈ dispatchStep run evt) ∧
    (∀ p ∈ dispatchStep run evt, p.1 = "Error handling event " ++ reprEvent evt) := by
  refine ⟨rfl, ?_, ?_⟩
  · intro k e hk he
    have hmem : k ∈ handlersTable := by cases evt <;> cases k <;> simp_all [isinstanceOf, handlersTable]
    apply List.mem_filterMap.mpr
    exact ⟨k, hmem, by rw [hk, he]; simp⟩
  · intro p hp
    rcases List.mem_filterMap.mp hp with ⟨k, _, hk⟩
    split at hk
    · split at hk
      · exact Option.noConfusion hk
      · injection hk with h
        rw [← h]
    · exact Option.noConfusion hk

theorem dispatch_catches_errors_witness :
    workerStep false (some (XEvent.keyPress 9999)) (fun _ _ => Except.error "boom")
      = .dispatched (dispatchStep (fun _ _ => Except.error "boom") (XEvent.keyPress 9999)) ∧
    ("Error handling event " ++ reprEvent (XEvent.keyPress 9999), "boom")
      ∈ dispatchStep (fun _ _ => Except.error "boom") (XEvent.keyPress 9999) := by
  have h := dispatch_catches_errors (fun _ _ => Except.error "boom") (XEvent.keyPress 9999)
  exact ⟨h.1, h.2.1 HandlerKey.keyPressEvent "boom" rfl rfl⟩

/-! ## Focus handler (`on_property_change`) -/

/-- A registered game instance handle, as the focus handler sees it: its
window id and its mutable `is_focused` flag. -/
structure GameInstance where
  id : Nat
  is_focused : Bool
deriving DecidableEq

/-- The `for id_, instance in self.manager._instances.items():` loop:
compute `active = active_win_id == id_`; when it differs from the stored
flag, update the flag and emit `focusChanged.emit(active)`.  Returns the
updated registry (in order) and the emitted notifications
`(handle id, new state)` in iteration order. -/
def focusPass (newActive : Nat) : List GameInstance → List GameInstance × List (Nat × Bool)
  | [] => ([], [])
  | i :: rest =>
    let active : Bool := newActive == i.id
    let r := focusPass newActive rest
    if active ≠ i.is_focused then
      ({ i with is_focused := active } :: r.1, (i.id, active) :: r.2)
    else (i :: r.1, r.2)

/-- The event worker's mutable state touched by the focus handler: the
last known active window id and the registry. -/
structure WorkerState where
  active_win_id : Nat
  instances : List GameInstance
deriving DecidableEq

/-- `on_property_change(evt)`: only react when `evt.atom` is the resolved
`_NET_ACTIVE_WINDOW` atom; read the new active window id (`newActive`,
the fresh `get_active_window()` result); no-op when it equals the stored
one; otherwise store it and run the focus pass.  Returns the new state
and the emitted focus-changed notifications. -/
def on_property_change (netActiveAtom : Nat) (st : WorkerState) (evtAtom : Nat)
    (newActive : Nat) : WorkerState × List (Nat × Bool) :=
  if evtAtom = netActiveAtom then
    if st.active_win_id = newActive then (st, [])
    else
      let r := focusPass newActive st.instances
      (⟨newActive, r.1⟩, r.2)
  else (st, [])

theorem focusPass_cons_pos {a : Nat} {i : GameInstance} {rest : List GameInstance}
    (h : (a == i.id) ≠ i.is_focused) :
    focusPass a (i :: rest)
      = ({ i with is_focused := (a == i.id) } :: (focusPass a rest).1,
         (i.id, (a == i.id)) :: (focusPass a rest).2) := by
  simp [focusPass, h]

theorem focusPass_cons_neg {a : Nat} {i : GameInstance} {rest : List GameInstance}
    (h : ¬ ((a == i.id) ≠ i.is_focused)) :
    focusPass a (i :: rest) = (i :: (focusPass a rest).1, (focusPass a rest).2) := by
  simp only [focusPass, if_neg h]

/-- The emitted notifications are exactly those of the handles whose
stored flag differs from the freshly computed `active` bit. -/
theorem focusPass_snd_eq (a : Nat) (l : List GameInstance) :
    (focusPass a l).2 = l.filterMap
      (fun i => if (a == i.id) ≠ i.is_focused then some (i.id, (a == i.id)) else none) := by
  induction l with
  | nil => rfl
  | cons i rest ih =>
    by_cases h : (a == i.id) ≠ i.is_focused
    · rw [focusPass_cons_pos h]
      simp only [List.filterMap_cons, if_pos h, ih]
    · rw [focusPass_cons_neg h]
      simp only [List.filterMap_cons, if_neg h, ih]

/-- The registry after the pass: each handle keeps its id, with the flag
overwritten exactly when it differed. -/
theorem focusPass_fst_eq (a : Nat) (l : List GameInstance) :
    (focusPass a l).1 = l.map
      (fun i => if (a == i.id) ≠ i.is_focused then { i with is_focused := (a == i.id) } else i) := by
  induction l with
  | nil => rfl
  | cons i rest ih =>
    by_cases h : (a == i.id) ≠ i.is_focused
    · rw [focusPass_cons_pos h, List.map_cons, if_pos h]
      exact congrArg _ ih
    · rw [focusPass_cons_neg h, List.map_cons, if_neg h]
      exact congrArg _ ih

/-- After the pass every handle's flag agrees with `a == id`. -/
theorem focusPass_flags (a : Nat) (l : List GameInstance) :
    ∀ i' ∈ (focusPass a l).1, i'.is_focused = (a == i'.id) := by
  intro i' hi'
  rw [focusPass_fst_eq] at hi'
  rcases List.mem_map.mp hi' with ⟨i, _, hf⟩
  by_cases h : (a == i.id) ≠ i.is_focused
  · rw [if_pos h] at hf
    rw [← hf]
  · rw [if_neg h] at hf
    rw [not_ne_iff] at h
    rw [← hf, ← h]

/-- The pass does not change which windows are registered. -/
theorem focusPass_ids (a : Nat) (l : List GameInstance) :
    (focusPass a l).1.map GameInstance.id = l.map GameInstance.id := by
  rw [focusPass_fst_eq, List.map_map]
  apply List.map_congr_left
  intro i _
  simp only [Function.comp_apply]
  by_cases h : (a == i.id) ≠ i.is_focused
  · rw [if_pos h]
  · rw [if_neg h]

/-- The notified ids form a sublist of the registered ids. -/
theorem focusPass_emit_ids (a : Nat) (l : List GameInstance) :
    ((focusPass a l).2.map Prod.fst).Sublist (l.map GameInstance.id) := by
  induction l with
  | nil => simp [focusPass]
  | cons i rest ih =>
    by_cases h : (a == i.id) ≠ i.is_focused
    · rw [focusPass_cons_pos h]
      exact List.Sublist.cons₂ i.id ih
    · rw [focusPass_cons_neg h]
      exact List.Sublist.cons i.id ih

/-- On a real transition from `oldA` to `a`, with all flags consistent
with `oldA`, the emitted notifications are exactly `(oldA, false)` (when
a handle for `oldA` is registered) and `(a, true)` (when a handle for `a`
is registered). -/
theorem focusPass_transition (oldA a : Nat) (l : List GameInstance)
    (hWF : ∀ i ∈ l, i.is_focused = (oldA == i.id)) (hne : oldA ≠ a) (p : Nat × Bool) :
    p ∈ (focusPass a l).2 ↔
      ((p = (oldA, false) ∧ oldA ∈ l.map GameInstance.id) ∨
       (p = (a, true) ∧ a ∈ l.map GameInstance.id)) := by
  rw [focusPass_snd_eq]
  constructor
  · intro hp
    rcases List.mem_filterMap.mp hp with ⟨i, hi, hg⟩
    rw [hWF i hi] at hg
    by_cases hia : i.id = a
    · have h1 : (a == i.id) = true := beq_iff_eq.mpr hia.symm
      have h2 : (oldA == i.id) = false := by
        rw [beq_eq_false_iff_ne]
        rw [hia]
        exact hne
      rw [h1, h2] at hg
      simp only [ne_eq, Bool.true_eq_false, not_false_eq_true, if_pos, Option.some.injEq] at hg
      right
      rw [← hg, hia]
      exact ⟨rfl, List.mem_map.mpr ⟨i, hi, hia⟩⟩
    · by_cases hio : i.id = oldA
      · have h1 : (a == i.id) = false := by
          rw [beq_eq_false_iff_ne]
          exact fun h => hia h.symm
        have h2 : (oldA == i.id) = true := beq_iff_eq.mpr hio.symm
        rw [h1, h2] at hg
        simp only [ne_eq, Bool.false_eq_true, not_false_eq_true, if_pos, Option.some.injEq] at hg
        left
        rw [← hg, hio]
        exact ⟨rfl, List.mem_map.mpr ⟨i, hi, hio⟩⟩
      · have h1 : (a == i.id) = false := by
          rw [beq_eq_false_iff_ne]
          exact fun h => hia h.symm
        have h2 : (oldA == i.id) = false := by
          rw [beq_eq_false_iff_ne]
          exact fun h => hio h.symm
        rw [h1, h2] at hg
        simp at hg
  · rintro (⟨rfl, hmem⟩ | ⟨rfl, hmem⟩)
    · rcases List.mem_map.mp hmem with ⟨i, hi, hid⟩
      apply List.mem_filterMap.mpr
      refine ⟨i, hi, ?_⟩
      have h1 : (a == i.id) = false := by
        rw [beq_eq_false_iff_ne]
        rw [hid]
        exact fun h => hne h.symm
      have h2 : i.is_focused = true := by
        rw [hWF i hi, hid]
        exact beq_self_eq_true oldA
      rw [h1, h2, hid]
      simp
    · rcases List.mem_map.mp hmem with ⟨i, hi, hid⟩
      apply List.mem_filterMap.mpr
      refine ⟨i, hi, ?_⟩
      have h1 : (a == i.id) = true := beq_iff_eq.mpr hid.symm
      have h2 : i.is_focused = false := by
        rw [hWF i hi, beq_eq_false_iff_ne, hid]
        exact hne
      rw [h1, h2, hid]
      simp

theorem on_property_change_eq_act (netAtom : Nat) (st : WorkerState) (newA : Nat)
    (h : st.active_win_id ≠ newA) :
    on_property_change netAtom st netAtom newA
      = (⟨newA, (focusPass newA st.instances).1⟩, (focusPass newA st.instances).2) := by
  simp [on_property_change, h]

/-- C6: on an active-window property-change event (the event's atom is the
resolved `_NET_ACTIVE_WINDOW` atom): if the freshly read active window id
equals the stored one, nothing changes and nothing is emitted; otherwise
exactly the handles whose stored flag differs from `newActive == id` are
notified (with the new flag value), every handle's flag afterwards equals
`newActive == id`, the registry keys are untouched, each registered handle
receives at most one notification, and — when the stored flags were
consistent with the old active window `A` and `B` is the new one — the
notified handles are exactly those registered for `A` (now `false`) and
`B` (now `true`). -/
theorem on_property_change_spec (netAtom evtAtom newA : Nat) (st : WorkerState)
    (hAtom : evtAtom = netAtom) :
    (st.active_win_id = newA → on_property_change netAtom st evtAtom newA = (st, [])) ∧
    (st.active_win_id ≠ newA →
      (∀ p, p ∈ (on_property_change netAtom st evtAtom newA).2 ↔
        ∃ i ∈ st.instances, (newA == i.id) ≠ i.is_focused ∧ p = (i.id, (newA == i.id))) ∧
      (on_property_change netAtom st evtAtom newA).1.active_win_id = newA ∧
      (∀ i' ∈ (on_property_change netAtom st evtAtom newA).1.instances,
        i'.is_focused = (newA == i'.id)) ∧
      (on_property_change netAtom st evtAtom newA).1.instances.map GameInstance.id
        = st.instances.map GameInstance.id ∧
      ((st.instances.map GameInstance.id).Nodup →
        ((on_property_change netAtom st evtAtom newA).2.map Prod.fst).Nodup) ∧
      ((∀ i ∈ st.instances, i.is_focused = (st.active_win_id == i.id)) →
        ∀ p, p ∈ (on_property_change netAtom st evtAtom newA).2 ↔
          ((p = (st.active_win_id, false) ∧
              st.active_win_id ∈ st.instances.map GameInstance.id) ∨
           (p = (newA, true) ∧ newA ∈ st.instances.map GameInstance.id)))) := by
  subst hAtom
  constructor
  · intro h
    simp [on_property_change, h]
  · intro hne
    rw [on_property_change_eq_act _ _ _ hne]
    refine ⟨?_, rfl, ?_, ?_, ?_, ?_⟩
    · intro p
      rw [focusPass_snd_eq]
      constructor
      · intro hp
        rcases List.mem_filterMap.mp hp with ⟨i, hi, hg⟩
        by_cases h : (newA == i.id) ≠ i.is_focused
        · rw [if_pos h] at hg
          injection hg with hg
          exact ⟨i, hi, h, hg.symm⟩
        · rw [if_neg h] at hg
          exact Option.noConfusion hg
      · rintro ⟨i, hi, h, rfl⟩
        exact List.mem_filterMap.mpr ⟨i, hi, if_pos h⟩
    · exact focusPass_flags newA st.instances
    · exact focusPass_ids newA st.instances
    · intro hnd
      exact hnd.sublist (focusPass_emit_ids newA st.instances)
    · intro hWF p
      exact focusPass_transition st.active_win_id newA st.instances hWF hne p

/-- A registry in which window 10 is focused and 20, 30 are not. -/
def focusInsts : List GameInstance := [⟨10, true⟩, ⟨20, false⟩, ⟨30, false⟩]

theorem on_property_change_spec_witness :
    on_property_change 1 ⟨10, focusInsts⟩ 1 10 = (⟨10, focusInsts⟩, []) ∧
    ((10, false) ∈ (on_property_change 1 ⟨10, focusInsts⟩ 1 20).2) ∧
    ((20, true) ∈ (on_property_change 1 ⟨10, focusInsts⟩ 1 20).2) := by
  have hsame := (on_property_change_spec 1 1 10 ⟨10, focusInsts⟩ rfl).1 rfl
  have h := (on_property_change_spec 1 1 20 ⟨10, focusInsts⟩ rfl).2 (by decide)
  have hAB := h.2.2.2.2.2 (by decide)
  refine ⟨hsame, ?_, ?_⟩
  · exact (hAB (10, false)).mpr (Or.inl ⟨rfl, by decide⟩)
  · exact (hAB (20, true)).mpr (Or.inr ⟨rfl, by decide⟩)

/-! ## Window discovery (`get_instances`) -/

/-- The NUL separator of the `WM_CLASS` property. -/
def nulChar : Char := Char.ofNat 0

/-- Python `wm_class.split("\x00")` on the character list of the decoded
`WM_CLASS` string: split at every NUL, keeping empty parts. -/
def splitOnNul : List Char → List (List Char)
  | [] => [[]]
  | c :: rest =>
    let r := splitOnNul rest
    if c = nulChar then [] :: r
    else
      match r with
      | [] => [[c]]
      | h :: t => (c :: h) :: t

/-- The characters of the target window-class string `"RuneScape"`. -/
def runescapeChars : List Char := ['R', 'u', 'n', 'e', 'S', 'c', 'a', 'p', 'e']

/-- The application-name component of a well-formed `WM_CLASS` value:
`some app` when the split yields exactly an instance/application pair. -/
def classApp (cls : List Char) : Option (List Char) :=
  match splitOnNul cls with
  | [_, app] => some app
  | _ => none

/-- A visited window registers a handle (if none exists) exactly when its
class value is non-empty and its application name is `"RuneScape"`. -/
def nodeMatches (cls : List Char) : Bool :=
  !(cls == []) && (classApp cls == some runescapeChars)

/-- A non-empty class value whose split is not exactly a pair makes the
tuple unpacking `instance_name, app_name = wm_class.split("\00")` raise. -/
def nodeMalformed (cls : List Char) : Bool :=
  !(cls == []) && !((splitOnNul cls).length == 2)

mutual
/-- A window tree node: id, `WM_CLASS` value (`[]` models an absent or
empty property, which is falsy) and children as returned by `QueryTree`. -/
inductive WTree where
  | node (wid : Nat) (cls : List Char) (children : WForest)
/-- A list of sibling windows. -/
inductive WForest where
  | nil
  | cons (t : WTree) (rest : WForest)
end

/-- The head of `visit(wid)`: skip a falsy class; otherwise unpack the
split into exactly two parts (`ValueError` — modelled as `.error ()` —
otherwise) and register `wid` when the application name matches and no
handle exists yet (`_instances` is the ordered key list `reg`). -/
def registerStep (reg : List Nat) (wid : Nat) (cls : List Char) :
    Except Unit (List Nat) :=
  if cls = [] then .ok reg
  else
    match splitOnNul cls with
    | [_, app] =>
      .ok (if app = runescapeChars ∧ wid ∉ reg then reg ++ [wid] else reg)
    | _ => .error ()

mutual
/-- `visit(wid)`: the registration head, then recursion into the children
(`QueryTree(wid).reply().children`), aborting on the first error. -/
def visit (reg : List Nat) : WTree → Except Unit (List Nat)
  | .node wid cls children =>
    match registerStep reg wid cls with
    | .ok reg1 => visitForest reg1 children
    | .error e => .error e
def visitForest (reg : List Nat) : WForest → Except Unit (List Nat)
  | .nil => .ok reg
  | .cons t rest =>
    match visit reg t with
    | .ok reg1 => visitForest reg1 rest
    | .error e => .error e
end

/-- `get_instances()`: run `visit` from the root and return the whole
registry (`list(self._instances.values())`). -/
def get_instances (reg : List Nat) (root : WTree) : Except Unit (List Nat) :=
  visit reg root

mutual
/-- Some node of the tree with id `w` registers on first visit. -/
def treeHasMatch (w : Nat) : WTree → Bool
  | .node wid cls children => ((wid == w) && nodeMatches cls) || forestHasMatch w children
def forestHasMatch (w : Nat) : WForest → Bool
  | .nil => false
  | .cons t rest => treeHasMatch w t || forestHasMatch w rest
end

mutual
/-- Some node of the tree has a malformed (non-pair) class value. -/
def treeMalformed : WTree → Bool
  | .node _ cls children => nodeMalformed cls || forestMalformed children
def forestMalformed : WForest → Bool
  | .nil => false
  | .cons t rest => treeMalformed t || forestMalformed rest
end

theorem registerStep_ok_char (reg : List Nat) (wid : Nat) (cls : List Char)
    (reg1 : List Nat) (h : registerStep reg wid cls = .ok reg1) :
    (∃ s, reg1 = reg ++ s) ∧
    (reg.Nodup → reg1.Nodup) ∧
    (∀ w, w ∈ reg1 ↔ w ∈ reg ∨ (nodeMatches cls = true ∧ w = wid)) := by
  by_cases hcls : cls = []
  · rw [registerStep, if_pos hcls] at h
    injection h with h
    subst h
    have hnm : nodeMatches cls = false := by rw [hcls]; rfl
    exact ⟨⟨[], by simp⟩, fun hnd => hnd, fun w => by simp [hnm]⟩
  · rw [registerStep, if_neg hcls] at h
    rcases hsplit : splitOnNul cls with _ | ⟨p1, _ | ⟨p2, _ | ⟨p3, tl⟩⟩⟩ <;> rw [hsplit] at h
    · exact Except.noConfusion h
    · exact Except.noConfusion h
    · injection h with h
      have hca : classApp cls = some p2 := by rw [classApp, hsplit]
      have hne : (cls == []) = false := beq_eq_false_iff_ne.mpr hcls
      by_cases happ : p2 = runescapeChars
      · have hnm : nodeMatches cls = true := by
          rw [nodeMatches, hca, hne]
          simp [happ]
        by_cases hwid : wid ∈ reg
        · rw [if_neg (by simp [hwid])] at h
          subst h
          refine ⟨⟨[], by simp⟩, fun hnd => hnd, fun w => ?_⟩
          constructor
          · exact Or.inl
          · rintro (hw | ⟨_, rfl⟩)
            · exact hw
            · exact hwid
        · rw [if_pos ⟨happ, hwid⟩] at h
          subst h
          refine ⟨⟨[wid], rfl⟩, fun hnd => ?_, fun w => ?_⟩
          · rw [List.nodup_append]
            exact ⟨hnd, List.nodup_singleton wid, by
              intro a ha hb
              rw [List.mem_singleton] at hb
              subst hb
              exact hwid ha⟩
          · rw [List.mem_append, List.mem_singleton]
            simp [hnm]
      · have hnm : nodeMatches cls = false := by
          rw [nodeMatches, hca, hne]
          simp [happ]
        rw [if_neg (by simp [happ])] at h
        subst h
        exact ⟨⟨[], by simp⟩, fun hnd => hnd, fun w => by simp [hnm]⟩
    · exact Except.noConfusion h

theorem registerStep_error_char (reg : List Nat) (wid : Nat) (cls : List Char) :
    (nodeMalformed cls = true → registerStep reg wid cls = .error ()) ∧
    (nodeMalformed cls = false → ∃ reg1, registerStep reg wid cls = .ok reg1) := by
  by_cases hcls : cls = []
  · have hnm : nodeMalformed cls = false := by rw [hcls]; rfl
    refine ⟨fun hm => absurd (hnm ▸ hm) (by simp), fun _ => ⟨reg, ?_⟩⟩
    rw [registerStep, if_pos hcls]
  · have hne : (cls == []) = false := beq_eq_false_iff_ne.mpr hcls
    rcases hsplit : splitOnNul cls with _ | ⟨p1, _ | ⟨p2, _ | ⟨p3, tl⟩⟩⟩
    · have hnm : nodeMalformed cls = true := by rw [nodeMalformed, hne, hsplit]; rfl
      refine ⟨fun _ => ?_, fun hm => absurd (hnm ▸ hm) (by simp)⟩
      rw [registerStep, if_neg hcls, hsplit]
    · have hnm : nodeMalformed cls = true := by rw [nodeMalformed, hne, hsplit]; rfl
      refine ⟨fun _ => ?_, fun hm => absurd (hnm ▸ hm) (by simp)⟩
      rw [registerStep, if_neg hcls, hsplit]
    · have hnm : nodeMalformed cls = false := by rw [nodeMalformed, hne, hsplit]; rfl
      refine ⟨fun hm => absurd (hnm ▸ hm) (by simp), fun _ =>
        ⟨if p2 = runescapeChars ∧ wid ∉ reg then reg ++ [wid] else reg, ?_⟩⟩
      rw [registerStep, if_neg hcls, hsplit]
    · have hnm : nodeMalformed cls = true := by rw [nodeMalformed, hne, hsplit]; rfl
      refine ⟨fun _ => ?_, fun hm => absurd (hnm ▸ hm) (by simp)⟩
      rw [registerStep, if_neg hcls, hsplit]

theorem registerStep_noadd (reg : List Nat) (wid : Nat) (cls : List Char)
    (hm : nodeMalformed cls = false) (hin : nodeMatches cls = true → wid ∈ reg) :
    registerStep reg wid cls = .ok reg := by
  by_cases hcls : cls = []
  · rw [registerStep, if_pos hcls]
  · have hne : (cls == []) = false := beq_eq_false_iff_ne.mpr hcls
    rcases hsplit : splitOnNul cls with _ | ⟨p1, _ | ⟨p2, _ | ⟨p3, tl⟩⟩⟩
    · have h1 : nodeMalformed cls = true := by rw [nodeMalformed, hne, hsplit]; rfl
      rw [h1] at hm
      exact Bool.noConfusion hm
    · have h1 : nodeMalformed cls = true := by rw [nodeMalformed, hne, hsplit]; rfl
      rw [h1] at hm
      exact Bool.noConfusion hm
    · have hca : classApp cls = some p2 := by rw [classApp, hsplit]
      simp only [registerStep, if_neg hcls, hsplit]
      by_cases happ : p2 = runescapeChars
      · have hwid : wid ∈ reg := hin (by rw [nodeMatches, hca, hne]; simp [happ])
        rw [if_neg (by simp [hwid])]
      · rw [if_neg (by simp [happ])]
    · have h1 : nodeMalformed cls = true := by rw [nodeMalformed, hne, hsplit]; rfl
      rw [h1] at hm
      exact Bool.noConfusion hm

mutual
/-- A successful traversal extends the registry at the back, keeps it
duplicate-free, and its final membership is: previously registered, or
some node of the tree registers that id. -/
theorem visit_ok (t : WTree) : ∀ reg reg', visit reg t = Except.ok reg' → reg.Nodup →
    (∃ s, reg' = reg ++ s) ∧ reg'.Nodup ∧
    (∀ w, w ∈ reg' ↔ w ∈ reg ∨ treeHasMatch w t = true) := by
  match t with
  | .node wid cls children =>
    intro reg reg' h hnd
    simp only [visit] at h
    rcases hrs : registerStep reg wid cls with e | reg1 <;> rw [hrs] at h
    · exact Except.noConfusion h
    · obtain ⟨hpre1, hnd1, hmem1⟩ := registerStep_ok_char reg wid cls reg1 hrs
      obtain ⟨⟨s2, hs2⟩, hnd2, hmem2⟩ := visitForest_ok children reg1 reg' h (hnd1 hnd)
      refine ⟨?_, hnd2, ?_⟩
      · obtain ⟨s1, hs1⟩ := hpre1
        exact ⟨s1 ++ s2, by rw [hs2, hs1, List.append_assoc]⟩
      · intro w
        rw [hmem2 w, hmem1 w, treeHasMatch]
        simp only [Bool.or_eq_true, Bool.and_eq_true, beq_iff_eq]
        constructor
        · rintro ((hw | ⟨hm, rfl⟩) | hf)
          · exact Or.inl hw
          · exact Or.inr (Or.inl ⟨rfl, hm⟩)
          · exact Or.inr (Or.inr hf)
        · rintro (hw | (⟨rfl, hm⟩ | hf))
          · exact Or.inl (Or.inl hw)
          · exact Or.inl (Or.inr ⟨hm, rfl⟩)
          · exact Or.inr hf
/-- `visit_ok` over a sibling list. -/
theorem visitForest_ok (f : WForest) : ∀ reg reg',
    visitForest reg f = Except.ok reg' → reg.Nodup →
    (∃ s, reg' = reg ++ s) ∧ reg'.Nodup ∧
    (∀ w, w ∈ reg' ↔ w ∈ reg ∨ forestHasMatch w f = true) := by
  match f with
  | .nil =>
    intro reg reg' h hnd
    simp only [visitForest] at h
    injection h with h
    subst h
    exact ⟨⟨[], by simp⟩, hnd, fun w => by simp [forestHasMatch]⟩
  | .cons t rest =>
    intro reg reg' h hnd
    simp only [visitForest] at h
    rcases hv : visit reg t with e | reg1 <;> rw [hv] at h
    · exact Except.noConfusion h
    · obtain ⟨⟨s1, hs1⟩, hnd1, hmem1⟩ := visit_ok t reg reg1 hv hnd
      obtain ⟨⟨s2, hs2⟩, hnd2, hmem2⟩ := visitForest_ok rest reg1 reg' h hnd1
      refine ⟨⟨s1 ++ s2, by rw [hs2, hs1, List.append_assoc]⟩, hnd2, ?_⟩
      intro w
      rw [hmem2 w, hmem1 w, forestHasMatch]
      simp only [Bool.or_eq_true]
      tauto
end

mutual
/-- The traversal fails exactly on trees containing a malformed class. -/
theorem visit_malformed (t : WTree) : ∀ reg,
    (treeMalformed t = true → visit reg t = Except.error ()) ∧
    (treeMalformed t = false → ∃ reg', visit reg t = Except.ok reg') := by
  match t with
  | .node wid cls children =>
    intro reg
    constructor
    · intro hm
      rw [treeMalformed, Bool.or_eq_true] at hm
      rcases hm with hm | hm
      · have h1 := (registerStep_error_char reg wid cls).1 hm
        simp only [visit, h1]
      · rcases hrs : registerStep reg wid cls with e | reg1
        · cases e
          simp only [visit, hrs]
        · have h1 := (visitForest_malformed children reg1).1 hm
          simp only [visit, hrs, h1]
    · intro hm
      rw [treeMalformed, Bool.or_eq_false_iff] at hm
      obtain ⟨reg1, hrs⟩ := (registerStep_error_char reg wid cls).2 hm.1
      obtain ⟨reg', hf⟩ := (visitForest_malformed children reg1).2 hm.2
      exact ⟨reg', by simp only [visit, hrs, hf]⟩
/-- `visit_malformed` over a sibling list. -/
theorem visitForest_malformed (f : WForest) : ∀ reg,
    (forestMalformed f = true → visitForest reg f = Except.error ()) ∧
    (forestMalformed f = false → ∃ reg', visitForest reg f = Except.ok reg') := by
  match f with
  | .nil =>
    intro reg
    exact ⟨fun hm => Bool.noConfusion hm, fun _ => ⟨reg, rfl⟩⟩
  | .cons t rest =>
    intro reg
    constructor
    · intro hm
      rw [forestMalformed, Bool.or_eq_true] at hm
      rcases hm with hm | hm
      · have h1 := (visit_malformed t reg).1 hm
        simp only [visitForest, h1]
      · rcases hv : visit reg t with e | reg1
        · cases e
          simp only [visitForest, hv]
        · have h1 := (visitForest_malformed rest reg1).1 hm
          simp only [visitForest, hv, h1]
    · intro hm
      rw [forestMalformed, Bool.or_eq_false_iff] at hm
      obtain ⟨reg1, hv⟩ := (visit_malformed t reg).2 hm.1
      obtain ⟨reg', hf⟩ := (visitForest_malformed rest reg1).2 hm.2
      exact ⟨reg', by simp only [visitForest, hv, hf]⟩
end

mutual
/-- A well-formed traversal that can register nothing new returns the
registry unchanged. -/
theorem visit_noadd (t : WTree) : ∀ reg, treeMalformed t = false →
    (∀ w, treeHasMatch w t = true → w ∈ reg) → visit reg t = Except.ok reg := by
  match t with
  | .node wid cls children =>
    intro reg hm hin
    rw [treeMalformed, Bool.or_eq_false_iff] at hm
    have hrs : registerStep reg wid cls = .ok reg := by
      apply registerStep_noadd reg wid cls hm.1
      intro hmatch
      exact hin wid (by simp [treeHasMatch, hmatch])
    have hf : visitForest reg children = .ok reg := by
      apply visitForest_noadd children reg hm.2
      intro w hw
      exact hin w (by simp [treeHasMatch, hw])
    simp only [visit, hrs, hf]
/-- `visit_noadd` over a sibling list. -/
theorem visitForest_noadd (f : WForest) : ∀ reg, forestMalformed f = false →
    (∀ w, forestHasMatch w f = true → w ∈ reg) → visitForest reg f = Except.ok reg := by
  match f with
  | .nil =>
    intro reg _ _
    rfl
  | .cons t rest =>
    intro reg hm hin
    rw [forestMalformed, Bool.or_eq_false_iff] at hm
    have h1 : visit reg t = .ok reg := visit_noadd t reg hm.1
      (fun w hw => hin w (by simp [forestHasMatch, hw]))
    have h2 : visitForest reg rest = .ok reg := visitForest_noadd rest reg hm.2
      (fun w hw => hin w (by simp [forestHasMatch, hw]))
    simp only [visitForest, h1, h2]
end

/-- C7: a successful `get_instances` call registers new handles only for
visited windows whose application-name component is `"RuneScape"` and that
had no handle yet; earlier handles are kept (the old registry is a prefix
of the new), the result has no duplicates (at most one handle per window
id across all calls), membership is exactly "previously registered or
matching in the tree", and a repeated call on the same tree returns the
same registry unchanged. -/
theorem get_instances_spec (reg reg' : List Nat) (t : WTree)
    (h : get_instances reg t = Except.ok reg') (hnd : reg.Nodup) :
    (∃ s, reg' = reg ++ s) ∧
    reg'.Nodup ∧
    (∀ w, w ∈ reg' ↔ w ∈ reg ∨ treeHasMatch w t = true) ∧
    get_instances reg' t = Except.ok reg' := by
  obtain ⟨hpre, hnd', hmem⟩ := visit_ok t reg reg' h hnd
  refine ⟨hpre, hnd', hmem, ?_⟩
  rcases hm : treeMalformed t with _ | _
  · exact visit_noadd t reg' hm (fun w hw => (hmem w).mpr (Or.inr hw))
  · have herr := (visit_malformed t reg).1 hm
    rw [get_instances, herr] at h
    exact Except.noConfusion h

/-- A sample window tree: a root without class, a matching window 2, a
non-matching window 3, and a matching window 5 that already has a
handle. -/
def sampleTree : WTree :=
  .node 1 []
    (.cons (.node 2 (['f', 'o', 'o'] ++ nulChar :: runescapeChars) .nil)
      (.cons (.node 3 (['b', 'a', 'r'] ++ [nulChar, 'O']) .nil)
        (.cons (.node 5 ('x' :: nulChar :: runescapeChars) .nil) .nil)))

theorem get_instances_spec_witness :
    (∃ s, [5, 2] = [5] ++ s) ∧
    ([5, 2] : List Nat).Nodup ∧
    ((2 : Nat) ∈ [5, 2] ↔ (2 : Nat) ∈ [5] ∨ treeHasMatch 2 sampleTree = true) ∧
    get_instances [5, 2] sampleTree = Except.ok [5, 2] := by
  have h := get_instances_spec [5] [5, 2] sampleTree rfl (by decide)
  exact ⟨h.1, h.2.1, h.2.2.1 2, h.2.2.2⟩

/-- C10: `get_instances` raises the tuple-unpacking error — aborting the
traversal — exactly when some visited window has a non-empty class value
that does not split into exactly an instance-name/application-name pair;
with no such window the traversal completes (absent/empty class values
are skipped silently). -/
theorem get_instances_unpack_error (reg : List Nat) (t : WTree) :
    (treeMalformed t = true → get_instances reg t = Except.error ()) ∧
    (treeMalformed t = false → ∃ reg', get_instances reg t = Except.ok reg') :=
  visit_malformed t reg

theorem get_instances_unpack_error_witness :
    get_instances [] (WTree.node 7 ['a', 'b'] WForest.nil) = Except.error () ∧
    (∃ reg', get_instances [] sampleTree = Except.ok reg') :=
  ⟨(get_instances_unpack_error [] (WTree.node 7 ['a', 'b'] WForest.nil)).1 rfl,
   (get_instances_unpack_error [] sampleTree).2 rfl⟩
